import Mathlib

/-!
# Product allocation engine — verification development

Shallow embedding of the allocation engine in
`src/src/ProductAllocationApp.tsx` (component `ProductAllocationApp`).

Modelling conventions:
* JavaScript `number` values that hold money (credit, prices, totals) are
  modelled as exact rationals `ℚ`; quantities and stock counters are `ℤ`.
* `Math.floor(customer.creditRemaining / order.pricePerUnit)` is modelled by
  `affordCap` : for a non-zero price it is `some ⌊credit / price⌋`; for a zero
  price JavaScript division yields `Infinity` when the credit is positive,
  which no finite quantity exceeds, so the cap is then `none` ("unbounded"),
  the reading the design document prescribes for a zero price.  JavaScript's
  `0 / 0 = NaN` and `negative / 0 = -Infinity` do not fit an optional cap;
  they are modelled faithfully by the IEEE-value step functions `jsAllocStep`
  and `jsUpdateStep`, which provably agree with the optional-cap reading
  exactly on the positive-credit-at-zero-price regime (`ZeroPriceOK`).
* `Array.prototype.sort` is stable (ECMAScript 2019); the comparator
  `(creditB || 0) - (creditA || 0)` orders by the referenced customer's
  `creditRemaining`, descending.  Any stable sort by that key is
  extensionally the JavaScript sort, so it is embedded as a stable
  insertion sort (`sortByCredit`).
* React state (`state`, `errors`, `versionKey`) is bundled into `AppState`;
  each handler is a pure function `AppState → AppState`.
-/

structure Customer where
  id : String
  name : String
  creditRemaining : ℚ
  closingBalance : ℚ
deriving DecidableEq

structure Product where
  id : String
  name : String
  pricePerUnit : ℚ
deriving DecidableEq

structure Order where
  id : String
  customerId : String
  productId : String
  requestedQty : ℤ
  allocatedQty : ℤ
  suggestion : ℤ
  pricePerUnit : ℚ
  total : ℚ
deriving DecidableEq

structure AllocationState where
  totalStock : ℤ
  remainingStock : ℤ
  orders : List Order
  customers : List Customer
  products : List Product
deriving DecidableEq

/-- React component state: the allocation snapshot, the `errors` list and the
`versionKey` counter. -/
structure AppState where
  alloc : AllocationState
  errors : List String
  versionKey : ℕ
deriving DecidableEq

/-- Sum of `allocatedQty` over a list of orders
(JS: `reduce((sum, o) => sum + o.allocatedQty, 0)`). -/
def sumAlloc (l : List Order) : ℤ :=
  (l.map Order.allocatedQty).sum

/-- `state.customers.find(c => c.id === cid)`. -/
def findCustomer (customers : List Customer) (cid : String) : Option Customer :=
  customers.find? (fun c => c.id == cid)

/-- The credit figure the engine reads for an order:
`(state.customers.find(c => c.id === o.customerId))?.creditRemaining || 0`.
For a found customer `c.creditRemaining || 0` coincides with
`c.creditRemaining` (the only falsy rational is `0`, and `0 || 0 = 0`);
for a missing customer it is `0`. -/
def creditOf (customers : List Customer) (o : Order) : ℚ :=
  ((findCustomer customers o.customerId).map Customer.creditRemaining).getD 0

/-- `Math.floor(credit / price)` as an optional upper bound on a quantity.
For a non-zero price this is the exact floor.  `none` models the JavaScript
result `Infinity` of dividing a POSITIVE credit by a zero price (the cap
then drops out of `Math.min`, as §4.1 of the design prescribes).  The two
remaining zero-price cases of JavaScript do not fit an optional cap:
`0 / 0` is `NaN` (which poisons `Math.min`/`Math.max` and the stored
quantities) and a negative credit gives `-Infinity` (which forces the
minimum); they are modelled faithfully by `jsAllocStep`/`jsUpdateStep`
below, and `jsAllocStep_faithful`/`jsUpdateStep_faithful` prove this
optional-cap reading coincides with the JavaScript arithmetic exactly when
a zero price comes with positive credit — the regime (`ZeroPriceOK`) that
the theorems about zero-price-reachable states hypothesize. -/
def affordCap (credit price : ℚ) : Option ℤ :=
  if price = 0 then none else some ⌊credit / price⌋

/-- `Math.min n cap` where the cap may be the unbounded (`Infinity`) case. -/
def capMin (n : ℤ) : Option ℤ → ℤ
  | none => n
  | some m => min n m

/-- The auto-assignment per-order recheck
`order.allocatedQty > customer.creditRemaining / order.pricePerUnit`.
For `price ≠ 0` this is the exact rational comparison.  For `price = 0`
JavaScript division yields `Infinity` (positive credit), `NaN` (zero credit)
or `-Infinity` (negative credit); a finite quantity compares greater only in
the last case, i.e. exactly when `credit < 0`. -/
def creditViolated (a : ℤ) (credit price : ℚ) : Bool :=
  if price = 0 then decide (credit < 0) else decide (credit / price < (a : ℤ))

def exceedsCreditMsg (oid : String) : String :=
  "Order " ++ oid ++ ": Exceeds customer credit limit"

def exceedsRequestedMsg (oid : String) : String :=
  "Order " ++ oid ++ ": Allocation exceeds requested quantity"

def creditLimitMsg (oid : String) : String :=
  "Order " ++ oid ++ ": Limited by customer credit"

def stockLimitMsg (oid : String) : String :=
  "Order " ++ oid ++ ": Limited by available stock"

/-- One step of the stable descending insertion sort: insert `o` before the
first element whose key is `≤` the key of `o`. -/
def insertByCredit (customers : List Customer) (o : Order) : List Order → List Order
  | [] => [o]
  | b :: l =>
    if creditOf customers b ≤ creditOf customers o then o :: b :: l
    else b :: insertByCredit customers o l

/-- The priority ordering of `runAutoAssignment`
(JS: `newOrders.sort((a, b) => (creditB || 0) - (creditA || 0))`,
a stable sort, descending by the referenced customer's `creditRemaining`). -/
def sortByCredit (customers : List Customer) : List Order → List Order
  | [] => []
  | o :: l => insertByCredit customers o (sortByCredit customers l)

/-- Result of the allocation walk of `runAutoAssignment`: the processed order
list, the final running `remainingStock`, and the violation messages. -/
structure AutoResult where
  orders : List Order
  rem : ℤ
  errs : List String
deriving DecidableEq

/-- The `newOrders.forEach(order => …)` body of `runAutoAssignment`,
threading the running `remainingStock`.  An order whose customer is not
found is left untouched (`if (!customer) return;`) and the running stock is
not decremented for it.  Through `affordCap`, the per-order arithmetic is
exact for a non-zero price and reads a zero price as an unbounded cap;
that matches the JavaScript step exactly when the customer's credit is
positive (`jsAllocStep_faithful`), while at credit `0` the code computes
`NaN` allocations (`jsAllocStep`, `autoStep_zeroPrice_nan_cex`): theorems
over states that may contain zero-priced orders therefore carry the
`ZeroPriceOK` hypothesis. -/
def autoProcess (customers : List Customer) : List Order → ℤ → AutoResult
  | [], rem => ⟨[], rem, []⟩
  | o :: rest, rem =>
    match findCustomer customers o.customerId with
    | none =>
      let r := autoProcess customers rest rem
      ⟨o :: r.orders, r.rem, r.errs⟩
    | some cust =>
      let aff := affordCap cust.creditRemaining o.pricePerUnit
      let a := max 0 (capMin (min o.requestedQty rem) aff)
      let o' := { o with allocatedQty := a, total := (a : ℚ) * o.pricePerUnit }
      let e1 := if creditViolated a cust.creditRemaining o.pricePerUnit then
        [exceedsCreditMsg o.id] else []
      let e2 := if o.requestedQty < a then [exceedsRequestedMsg o.id] else []
      let r := autoProcess customers rest (rem - a)
      ⟨o' :: r.orders, r.rem, e1 ++ e2 ++ r.errs⟩

/-- `runAutoAssignment`: sort by priority, walk the sorted orders with the
running stock seeded at `totalStock`, store the processed orders and the
final running stock, replace `errors`, bump `versionKey`. -/
def runAutoAssignment (app : AppState) : AppState :=
  let sorted := sortByCredit app.alloc.customers app.alloc.orders
  let r := autoProcess app.alloc.customers sorted app.alloc.totalStock
  { alloc := { app.alloc with orders := r.orders, remainingStock := r.rem },
    errors := r.errs,
    versionKey := app.versionKey + 1 }

/-- Replace the first element satisfying `p` by its image under `f`
(the JS code replaces `newOrders[orderIndex]`, the index found by
`findIndex`). -/
def setFirst (p : α → Bool) (f : α → α) : List α → List α
  | [] => []
  | x :: xs => if p x then f x :: xs else x :: setFirst p f xs

/-- `updateAllocation(orderId, newQty)`.  A missing order or missing customer
is a silent no-op (the handler returns before any `setState`/`setErrors`/
`setVersionKey` call).  The constrained-quantity computation goes through
`affordCap` and so is faithful to the JavaScript arithmetic on the
`0 < pricePerUnit` regime that the update theorems hypothesize, and more
generally whenever a zero price comes with positive credit
(`jsUpdateStep_faithful`); the JavaScript `NaN`/`-Infinity` outcomes of a
zero price with non-positive credit are modelled by `jsUpdateStep`. -/
def updateAllocation (app : AppState) (orderId : String) (newQty : ℤ) : AppState :=
  match app.alloc.orders.find? (fun o => o.id == orderId) with
  | none => app
  | some order =>
    match findCustomer app.alloc.customers order.customerId with
    | none => app
    | some customer =>
      let aff := affordCap customer.creditRemaining order.pricePerUnit
      let currentAllocatedTotal :=
        sumAlloc (app.alloc.orders.filter (fun o => !(o.id == orderId)))
      let maxAvailableQty := app.alloc.totalStock - currentAllocatedTotal
      let constrainedQty :=
        capMin (min (max 0 newQty) (min order.requestedQty maxAvailableQty)) aff
      let newOrders := setFirst (fun o => o.id == orderId)
        (fun o => { o with allocatedQty := constrainedQty,
                           total := (constrainedQty : ℚ) * o.pricePerUnit })
        app.alloc.orders
      let newRemainingStock := app.alloc.totalStock - sumAlloc newOrders
      let newErrors :=
        if constrainedQty < newQty then
          if (some constrainedQty : Option ℤ) = aff then [creditLimitMsg orderId]
          else if constrainedQty = maxAvailableQty then [stockLimitMsg orderId]
          else []
        else []
      { alloc := { app.alloc with orders := newOrders,
                                  remainingStock := newRemainingStock },
        errors := newErrors,
        versionKey := app.versionKey + 1 }

/-- `resetAllocations`: zero every order's allocation and total, restore
`remainingStock` to `totalStock`, clear the error list, bump `versionKey`. -/
def resetAllocations (app : AppState) : AppState :=
  { alloc := { app.alloc with
      orders := app.alloc.orders.map (fun o => { o with allocatedQty := 0, total := 0 }),
      remainingStock := app.alloc.totalStock },
    errors := [],
    versionKey := app.versionKey + 1 }

/-- `saveAllocations`: a pure acknowledgement (`alert`); the state, the error
list and `versionKey` are untouched. -/
def saveAllocations (app : AppState) : AppState × String :=
  (app, "Allocations saved successfully! Version: " ++ toString app.versionKey)

/-- `String(n).padStart(3, '0')`. -/
def padLeft3 (s : String) : String :=
  String.mk (List.replicate (3 - s.length) '0') ++ s

/-- `addNewOrder`: append a fresh order with the derived display id and the
fixed defaults.  Neither `errors` nor `versionKey` is touched. -/
def addNewOrder (app : AppState) : AppState :=
  let newOrder : Order :=
    { id := "ORDER-" ++ padLeft3 (toString (app.alloc.orders.length + 1)),
      customerId := "company1",
      productId := "product",
      requestedQty := 1,
      allocatedQty := 0,
      suggestion := 1,
      pricePerUnit := 515.75,
      total := 0 }
  { app with alloc := { app.alloc with orders := app.alloc.orders ++ [newOrder] } }

/-- The initial component state hard-coded in the source. -/
def initialApp : AppState :=
  { alloc :=
    { totalStock := 10,
      remainingStock := 10,
      orders :=
        [{ id := "ORDER-001", customerId := "company1", productId := "product",
           requestedQty := 10, allocatedQty := 0, suggestion := 10,
           pricePerUnit := 515.75, total := 0 }],
      customers :=
        [{ id := "company1", name := "Company 1",
           creditRemaining := 3000, closingBalance := 3000 }],
      products :=
        [{ id := "product", name := "1 day delivery Product",
           pricePerUnit := 515.75 }] },
    errors := [],
    versionKey := 1 }

/-- `clamp(d, lo, hi)` as the spec words it (§4.2 step 6 / §8). -/
def clamp (d lo hi : ℤ) : ℤ :=
  max lo (min d hi)

/-- The auto-assignment walk exactly as claim/§4.1 word it, for comparison
with the embedding `autoProcess`: for each order in sequence,
`maxAffordableQty = floor(credit / price)` (unbounded when `price = 0`),
`allocatedQty = max(0, min(requestedQty, remainingStock, maxAffordableQty))`,
`total = allocatedQty × pricePerUnit`, and the running stock is decremented
by `allocatedQty`.  Returns the rewritten orders and the final running
stock. -/
def autoSpecWalk (customers : List Customer) : List Order → ℤ → List Order × ℤ
  | [], rem => ([], rem)
  | o :: rest, rem =>
    let credit := creditOf customers o
    let a :=
      if o.pricePerUnit = 0 then max 0 (min o.requestedQty rem)
      else max 0 (min o.requestedQty (min rem ⌊credit / o.pricePerUnit⌋))
    let r := autoSpecWalk customers rest (rem - a)
    ({ o with allocatedQty := a, total := (a : ℚ) * o.pricePerUnit } :: r.1, r.2)

/-- The data-model preconditions of §3: non-negative requested quantities,
prices, credits. -/
@[reducible] def Pre (s : AllocationState) : Prop :=
  (∀ o ∈ s.orders, 0 ≤ o.requestedQty ∧ 0 ≤ o.pricePerUnit)
  ∧ ∀ c ∈ s.customers, 0 ≤ c.creditRemaining

/-- Per-order invariants 1, 2 and 4 of §3: allocation bounds, total
consistency, and the credit cap against the order's customer (the credit
figure the engine reads, `creditOf`). -/
@[reducible] def OrderOK (customers : List Customer) (o : Order) : Prop :=
  0 ≤ o.allocatedQty ∧ o.allocatedQty ≤ o.requestedQty
  ∧ o.total = (o.allocatedQty : ℚ) * o.pricePerUnit
  ∧ (o.allocatedQty : ℚ) * o.pricePerUnit ≤ creditOf customers o

/-- State invariants 1–4 of §3 (the ones claim C3 lists): per-order
allocation bounds, total consistency, the credit cap against the order's
customer, the stock bound and the `remainingStock` equation. -/
@[reducible] def Invariants (s : AllocationState) : Prop :=
  (∀ o ∈ s.orders, OrderOK s.customers o)
  ∧ sumAlloc s.orders ≤ s.totalStock
  ∧ s.remainingStock = s.totalStock - sumAlloc s.orders

/-- Every order's `customerId` resolves to a customer. -/
@[reducible] def RefIntegrity (s : AllocationState) : Prop :=
  ∀ o ∈ s.orders, (findCustomer s.customers o.customerId).isSome

/-- A well-formed state: preconditions, non-negative stock, invariants,
referential integrity, and unique order ids (§3 invariant 5). -/
@[reducible] def StateOK (s : AllocationState) : Prop :=
  Pre s ∧ 0 ≤ s.totalStock ∧ Invariants s ∧ RefIntegrity s
  ∧ (s.orders.map Order.id).Nodup

/-- A state satisfying the data-model preconditions (but not invariant 1:
the second order has `allocatedQty = 7 > 2 = requestedQty`), used to show
that preconditions alone do not make the operations re-establish the
invariants. -/
def cexApp : AppState :=
  { alloc :=
    { totalStock := 10,
      remainingStock := 3,
      orders :=
        [{ id := "ORDER-001", customerId := "company1", productId := "product",
           requestedQty := 5, allocatedQty := 0, suggestion := 0,
           pricePerUnit := 1, total := 0 },
         { id := "ORDER-002", customerId := "company1", productId := "product",
           requestedQty := 2, allocatedQty := 7, suggestion := 0,
           pricePerUnit := 1, total := 7 }],
      customers :=
        [{ id := "company1", name := "Company 1",
           creditRemaining := 1000, closingBalance := 1000 }],
      products := [] },
    errors := [],
    versionKey := 1 }

/-! ## IEEE special values at a zero price

JavaScript numbers include `NaN` and the two infinities, and the source
reaches them exactly in the zero-price division: `credit / 0` is `Infinity`
for positive credit, `NaN` for credit `0`, and `-Infinity` for negative
credit.  The following small model captures a single allocation step of
the source over those values; the fidelity lemmas further below relate it
to the optional-cap embedding. -/

/-- An IEEE-754 double as it occurs in the allocation arithmetic: `NaN`,
one of the infinities, or a finite value (exact here; every finite value in
scope is an ordinary decimal). -/
inductive JSNum where
  | nan
  | posInf
  | negInf
  | fin (q : ℚ)
deriving DecidableEq

/-- JavaScript division `a / b` for finite operands (a negative zero cannot
arise for the values in scope). -/
def jsDiv (a b : ℚ) : JSNum :=
  if b = 0 then
    if 0 < a then JSNum.posInf else if a < 0 then JSNum.negInf else JSNum.nan
  else JSNum.fin (a / b)

/-- `Math.floor` over IEEE values. -/
def jsFloor : JSNum → JSNum
  | JSNum.nan => JSNum.nan
  | JSNum.posInf => JSNum.posInf
  | JSNum.negInf => JSNum.negInf
  | JSNum.fin a => JSNum.fin ⌊a⌋

/-- Binary `Math.min`: `NaN` absorbs, otherwise the smaller value. -/
def jsMin : JSNum → JSNum → JSNum
  | JSNum.nan, _ => JSNum.nan
  | _, JSNum.nan => JSNum.nan
  | JSNum.negInf, _ => JSNum.negInf
  | _, JSNum.negInf => JSNum.negInf
  | JSNum.posInf, y => y
  | x, JSNum.posInf => x
  | JSNum.fin a, JSNum.fin b => JSNum.fin (min a b)

/-- `Math.max(0, x)`: `NaN` absorbs, `-Infinity` is raised to `0`. -/
def jsMax0 : JSNum → JSNum
  | JSNum.nan => JSNum.nan
  | JSNum.posInf => JSNum.posInf
  | JSNum.negInf => JSNum.fin 0
  | JSNum.fin a => JSNum.fin (max 0 a)

/-- Multiplication by a finite value (IEEE: an infinity times zero is
`NaN`). -/
def jsMul (x : JSNum) (b : ℚ) : JSNum :=
  match x with
  | JSNum.nan => JSNum.nan
  | JSNum.posInf =>
    if 0 < b then JSNum.posInf else if b < 0 then JSNum.negInf else JSNum.nan
  | JSNum.negInf =>
    if 0 < b then JSNum.negInf else if b < 0 then JSNum.posInf else JSNum.nan
  | JSNum.fin a => JSNum.fin (a * b)

/-- IEEE subtraction (only the finite-minus-x cases are reachable here). -/
def jsSub (x y : JSNum) : JSNum :=
  match x, y with
  | JSNum.nan, _ => JSNum.nan
  | _, JSNum.nan => JSNum.nan
  | JSNum.posInf, JSNum.posInf => JSNum.nan
  | JSNum.posInf, _ => JSNum.posInf
  | JSNum.negInf, JSNum.negInf => JSNum.nan
  | JSNum.negInf, _ => JSNum.negInf
  | JSNum.fin _, JSNum.posInf => JSNum.negInf
  | JSNum.fin _, JSNum.negInf => JSNum.posInf
  | JSNum.fin a, JSNum.fin b => JSNum.fin (a - b)

/-- One iteration of the `forEach` body of `runAutoAssignment` over IEEE
values, for an order with the given requested quantity, the running stock
`rem`, and the found customer's credit:
`maxAffordableQty = Math.floor(credit / price)`,
`allocatedQty = Math.max(0, Math.min(req, rem, maxAffordableQty))`,
`total = allocatedQty * price`, `remainingStock -= allocatedQty`.
Returns `(allocatedQty, total, new remainingStock)`. -/
def jsAllocStep (credit price : ℚ) (req rem : ℤ) : JSNum × JSNum × JSNum :=
  let aff := jsFloor (jsDiv credit price)
  let allow := jsMin (jsMin (JSNum.fin (req : ℚ)) (JSNum.fin (rem : ℚ))) aff
  let alloc := jsMax0 allow
  (alloc, jsMul alloc price, jsSub (JSNum.fin (rem : ℚ)) alloc)

/-- The constrained-quantity computation of `updateAllocation` over IEEE
values, with the "other orders" stock headroom `avail` precomputed:
`constrainedQty = Math.min(Math.max(0, newQty), req, maxAffordableQty,
avail)`, `total = constrainedQty * price`.
Returns `(constrainedQty, total)`. -/
def jsUpdateStep (credit price : ℚ) (q req avail : ℤ) : JSNum × JSNum :=
  let aff := jsFloor (jsDiv credit price)
  let c := jsMin (jsMin (jsMin (jsMax0 (JSNum.fin (q : ℚ)))
    (JSNum.fin (req : ℚ))) aff) (JSNum.fin (avail : ℚ))
  (c, jsMul c price)

/-- The regime on which the optional-cap reading of the affordability bound
coincides with the JavaScript arithmetic: every zero-priced order's
customer holds positive credit, so that the division yields `Infinity`
rather than `NaN` (credit `0`) or `-Infinity` (negative credit). -/
@[reducible] def ZeroPriceOK (s : AllocationState) : Prop :=
  ∀ o ∈ s.orders, o.pricePerUnit = 0 → 0 < creditOf s.customers o

/-! ## Basic lemmas about the helpers -/

theorem sumAlloc_nil : sumAlloc [] = 0 := rfl

theorem sumAlloc_cons (o : Order) (l : List Order) :
    sumAlloc (o :: l) = o.allocatedQty + sumAlloc l := by
  simp [sumAlloc]

theorem sumAlloc_append (l₁ l₂ : List Order) :
    sumAlloc (l₁ ++ l₂) = sumAlloc l₁ + sumAlloc l₂ := by
  simp [sumAlloc]

theorem capMin_le (n : ℤ) (c : Option ℤ) : capMin n c ≤ n := by
  cases c with
  | none => exact le_refl n
  | some m => exact min_le_left n m

theorem creditOf_nonneg (customers : List Customer) (o : Order)
    (hc : ∀ c ∈ customers, 0 ≤ c.creditRemaining) :
    0 ≤ creditOf customers o := by
  unfold creditOf
  cases hf : findCustomer customers o.customerId with
  | none => simp
  | some c =>
    have hm : c ∈ customers := List.mem_of_find?_eq_some hf
    simpa using hc c hm

theorem creditOf_eq_of_find (customers : List Customer) (o : Order) (c : Customer)
    (hf : findCustomer customers o.customerId = some c) :
    creditOf customers o = c.creditRemaining := by
  simp [creditOf, hf]

/-! ## The stable sort: permutation, sortedness, stability -/

theorem insertByCredit_perm (customers : List Customer) (o : Order) (l : List Order) :
    (insertByCredit customers o l).Perm (o :: l) := by
  induction l with
  | nil => exact List.Perm.refl _
  | cons b t ih =>
    unfold insertByCredit
    by_cases hb : creditOf customers b ≤ creditOf customers o
    · simp only [hb, if_true]
      exact List.Perm.refl _
    · simp only [hb, if_false]
      exact (ih.cons b).trans (List.Perm.swap o b t)

theorem sortByCredit_perm (customers : List Customer) (l : List Order) :
    (sortByCredit customers l).Perm l := by
  induction l with
  | nil => exact List.Perm.refl _
  | cons o t ih =>
    exact (insertByCredit_perm customers o _).trans (ih.cons o)

theorem pairwise_insertByCredit (customers : List Customer) (o : Order) (l : List Order)
    (h : l.Pairwise (fun a b => creditOf customers b ≤ creditOf customers a)) :
    (insertByCredit customers o l).Pairwise
      (fun a b => creditOf customers b ≤ creditOf customers a) := by
  induction l with
  | nil => simp [insertByCredit]
  | cons b t ih =>
    rw [List.pairwise_cons] at h
    obtain ⟨hb', ht⟩ := h
    unfold insertByCredit
    by_cases hb : creditOf customers b ≤ creditOf customers o
    · simp only [hb, if_true]
      refine List.Pairwise.cons ?_ (List.Pairwise.cons hb' ht)
      intro x hx
      rcases List.mem_cons.mp hx with rfl | hx
      · exact hb
      · exact (hb' x hx).trans hb
    · simp only [hb, if_false]
      refine List.Pairwise.cons ?_ (ih ht)
      intro x hx
      have hx' : x = o ∨ x ∈ t :=
        List.mem_cons.mp ((insertByCredit_perm customers o t).subset hx)
      rcases hx' with rfl | hx'
      · exact le_of_lt (lt_of_not_le hb)
      · exact hb' x hx'

theorem sortByCredit_pairwise (customers : List Customer) (l : List Order) :
    (sortByCredit customers l).Pairwise
      (fun a b => creditOf customers b ≤ creditOf customers a) := by
  induction l with
  | nil => simp [sortByCredit]
  | cons o t ih => exact pairwise_insertByCredit customers o _ ih

theorem filter_insertByCredit (customers : List Customer) (o : Order) (l : List Order)
    (c : ℚ) :
    (insertByCredit customers o l).filter (fun x => decide (creditOf customers x = c))
      = if creditOf customers o = c then
          o :: l.filter (fun x => decide (creditOf customers x = c))
        else l.filter (fun x => decide (creditOf customers x = c)) := by
  induction l with
  | nil =>
    by_cases ho : creditOf customers o = c <;>
      simp [insertByCredit, List.filter, ho]
  | cons b t ih =>
    unfold insertByCredit
    by_cases hb : creditOf customers b ≤ creditOf customers o
    · rw [if_pos hb]
      by_cases ho : creditOf customers o = c
      · rw [if_pos ho, List.filter_cons_of_pos (by simpa using ho)]
      · rw [if_neg ho, List.filter_cons_of_neg (by simpa using ho)]
    · rw [if_neg hb]
      have hbo : creditOf customers o < creditOf customers b := lt_of_not_le hb
      by_cases ho : creditOf customers o = c
      · have hbc : ¬ creditOf customers b = c := by
          intro hbc
          exact absurd (hbc.trans ho.symm) (ne_of_gt hbo)
        rw [if_pos ho, List.filter_cons_of_neg (by simpa using hbc), ih, if_pos ho,
          List.filter_cons_of_neg (by simpa using hbc)]
      · rw [if_neg ho]
        by_cases hbc : creditOf customers b = c
        · rw [List.filter_cons_of_pos (by simpa using hbc), ih, if_neg ho,
            List.filter_cons_of_pos (by simpa using hbc)]
        · rw [List.filter_cons_of_neg (by simpa using hbc), ih, if_neg ho,
            List.filter_cons_of_neg (by simpa using hbc)]

theorem filter_sortByCredit (customers : List Customer) (l : List Order) (c : ℚ) :
    (sortByCredit customers l).filter (fun x => decide (creditOf customers x = c))
      = l.filter (fun x => decide (creditOf customers x = c)) := by
  induction l with
  | nil => rfl
  | cons o t ih =>
    rw [sortByCredit, filter_insertByCredit]
    by_cases ho : creditOf customers o = c <;>
      simp [ho, ih, List.filter_cons]

/-! ## Lemmas about the auto-assignment walk -/

theorem findCustomer_mem {customers : List Customer} {cid : String} {c : Customer}
    (h : findCustomer customers cid = some c) : c ∈ customers :=
  List.mem_of_find?_eq_some h

/-- The allocation chosen by the walk never exceeds the customer's credit:
`alloc × price ≤ credit` whenever `0 ≤ credit` and `0 ≤ price`. -/
theorem autoAlloc_credit (credit price : ℚ) (n : ℤ)
    (hcred : 0 ≤ credit) (hp : 0 ≤ price) :
    ((max 0 (capMin n (affordCap credit price)) : ℤ) : ℚ) * price ≤ credit := by
  rcases eq_or_lt_of_le hp with hp0 | hp0
  · rw [← hp0, mul_zero]
    exact hcred
  · have hne : price ≠ 0 := ne_of_gt hp0
    rw [affordCap, if_neg hne]
    have hF0 : 0 ≤ ⌊credit / price⌋ := Int.le_floor.mpr (by
      push_cast
      exact div_nonneg hcred hp0.le)
    have hcm : capMin n (some ⌊credit / price⌋) = min n ⌊credit / price⌋ := rfl
    have ha : max 0 (capMin n (some ⌊credit / price⌋)) ≤ ⌊credit / price⌋ := by
      rw [hcm]
      omega
    calc ((max 0 (capMin n (some ⌊credit / price⌋)) : ℤ) : ℚ) * price
        ≤ ((⌊credit / price⌋ : ℤ) : ℚ) * price := by
          exact mul_le_mul_of_nonneg_right (by exact_mod_cast ha) hp0.le
      _ ≤ (credit / price) * price :=
          mul_le_mul_of_nonneg_right (Int.floor_le _) hp0.le
      _ = credit := div_mul_cancel₀ credit hne

/-- The walk preserves the identity and the sequencing of the orders. -/
theorem autoProcess_map_id (customers : List Customer) (l : List Order) (rem : ℤ) :
    ((autoProcess customers l rem).orders).map Order.id = l.map Order.id := by
  induction l generalizing rem with
  | nil => rfl
  | cons o rest ih =>
    cases hf : findCustomer customers o.customerId with
    | none => simp [autoProcess, hf, ih]
    | some cust => simp [autoProcess, hf, ih]

/-- Under the data-model preconditions the defensive rechecks of the walk
never fire: the violation list is empty. -/
theorem autoProcess_errs_nil (customers : List Customer)
    (hc : ∀ c ∈ customers, 0 ≤ c.creditRemaining) :
    ∀ (l : List Order) (rem : ℤ),
      (∀ o ∈ l, 0 ≤ o.requestedQty ∧ 0 ≤ o.pricePerUnit) →
      (autoProcess customers l rem).errs = [] := by
  intro l
  induction l with
  | nil => intro rem hl; rfl
  | cons o rest ih =>
    intro rem hl
    have ho := hl o (List.mem_cons_self o rest)
    have hrest : ∀ o' ∈ rest, 0 ≤ o'.requestedQty ∧ 0 ≤ o'.pricePerUnit :=
      fun o' h => hl o' (List.mem_cons_of_mem o h)
    cases hf : findCustomer customers o.customerId with
    | none => simp [autoProcess, hf, ih rem hrest]
    | some cust =>
      have hcred : 0 ≤ cust.creditRemaining := hc cust (findCustomer_mem hf)
      have hcv : creditViolated
          (max 0 (capMin (min o.requestedQty rem)
            (affordCap cust.creditRemaining o.pricePerUnit)))
          cust.creditRemaining o.pricePerUnit = false := by
        unfold creditViolated
        by_cases hp : o.pricePerUnit = 0
        · rw [if_pos hp]
          simp [not_lt.mpr hcred]
        · rw [if_neg hp]
          have hp0 : 0 < o.pricePerUnit := lt_of_le_of_ne ho.2 (Ne.symm hp)
          have hmul := autoAlloc_credit cust.creditRemaining o.pricePerUnit
            (min o.requestedQty rem) hcred ho.2
          have : ¬ (cust.creditRemaining / o.pricePerUnit
              < ((max 0 (capMin (min o.requestedQty rem)
                  (affordCap cust.creditRemaining o.pricePerUnit)) : ℤ) : ℚ)) := by
            rw [not_lt, le_div_iff₀ hp0]
            exact hmul
          simpa using this
      have hr : ¬ (o.requestedQty < max 0 (capMin (min o.requestedQty rem)
          (affordCap cust.creditRemaining o.pricePerUnit))) := by
        have hcm := capMin_le (min o.requestedQty rem)
          (affordCap cust.creditRemaining o.pricePerUnit)
        have hreq := ho.1
        omega
      simp [autoProcess, hf, hcv, hr, ih (rem - _) hrest]

/-- The structural facts about the walk needed for invariant preservation:
per-order bounds, the final running stock, and its non-negativity. -/
theorem autoProcess_ok (customers : List Customer)
    (hc : ∀ c ∈ customers, 0 ≤ c.creditRemaining) :
    ∀ (l : List Order) (rem : ℤ),
      (∀ o ∈ l, 0 ≤ o.requestedQty ∧ 0 ≤ o.pricePerUnit
        ∧ (findCustomer customers o.customerId).isSome) →
      0 ≤ rem →
      (∀ o' ∈ (autoProcess customers l rem).orders, OrderOK customers o')
      ∧ (autoProcess customers l rem).rem
          = rem - sumAlloc (autoProcess customers l rem).orders
      ∧ 0 ≤ (autoProcess customers l rem).rem := by
  intro l
  induction l with
  | nil =>
    intro rem hl hrem
    refine ⟨by simp [autoProcess], by simp [autoProcess, sumAlloc], by simpa [autoProcess] using hrem⟩
  | cons o rest ih =>
    intro rem hl hrem
    have ho := hl o (List.mem_cons_self o rest)
    have hrest : ∀ o' ∈ rest, 0 ≤ o'.requestedQty ∧ 0 ≤ o'.pricePerUnit
        ∧ (findCustomer customers o'.customerId).isSome :=
      fun o' h => hl o' (List.mem_cons_of_mem o h)
    cases hf : findCustomer customers o.customerId with
    | none =>
      exfalso
      have := ho.2.2
      rw [hf] at this
      exact Bool.noConfusion this
    | some cust =>
      have hcred : 0 ≤ cust.creditRemaining := hc cust (findCustomer_mem hf)
      have hcm := capMin_le (min o.requestedQty rem)
        (affordCap cust.creditRemaining o.pricePerUnit)
      have hale : max 0 (capMin (min o.requestedQty rem)
          (affordCap cust.creditRemaining o.pricePerUnit)) ≤ rem := by omega
      have hrem' : 0 ≤ rem - max 0 (capMin (min o.requestedQty rem)
          (affordCap cust.creditRemaining o.pricePerUnit)) := by omega
      obtain ⟨ihall, ihrem, ihpos⟩ := ih (rem - max 0 (capMin (min o.requestedQty rem)
          (affordCap cust.creditRemaining o.pricePerUnit))) hrest hrem'
      refine ⟨?_, ?_, ?_⟩
      · intro o' ho'
        simp only [autoProcess, hf] at ho'
        rcases List.mem_cons.mp ho' with rfl | ho'
        · refine ⟨le_max_left _ _, by have := ho.1; dsimp only; omega, rfl, ?_⟩
          show ((max 0 (capMin (min o.requestedQty rem)
              (affordCap cust.creditRemaining o.pricePerUnit)) : ℤ) : ℚ)
              * o.pricePerUnit ≤ creditOf customers _
          have hco : creditOf customers
              { o with
                allocatedQty := max 0 (capMin (min o.requestedQty rem)
                  (affordCap cust.creditRemaining o.pricePerUnit)),
                total := ((max 0 (capMin (min o.requestedQty rem)
                  (affordCap cust.creditRemaining o.pricePerUnit)) : ℤ) : ℚ)
                  * o.pricePerUnit }
              = cust.creditRemaining := creditOf_eq_of_find customers _ cust hf
          rw [hco]
          exact autoAlloc_credit cust.creditRemaining o.pricePerUnit
            (min o.requestedQty rem) hcred ho.2.1
        · exact ihall o' ho'
      · simp only [autoProcess, hf]
        rw [sumAlloc_cons]
        dsimp only
        omega
      · simp only [autoProcess, hf]
        exact ihpos

/-! ## Lemmas about find? and setFirst -/

theorem find?_decomp {α : Type} {p : α → Bool} {l : List α} {a : α}
    (h : l.find? p = some a) :
    ∃ l₁ l₂, l = l₁ ++ a :: l₂ ∧ ∀ x ∈ l₁, p x = false := by
  induction l with
  | nil => cases h
  | cons x xs ih =>
    cases hp : p x with
    | true =>
      rw [List.find?_cons_of_pos _ hp] at h
      obtain rfl : x = a := by injection h
      exact ⟨[], xs, rfl, by simp⟩
    | false =>
      rw [List.find?_cons_of_neg _ (by simp [hp])] at h
      obtain ⟨l₁, l₂, hl, hl₁⟩ := ih h
      refine ⟨x :: l₁, l₂, by rw [hl, List.cons_append], ?_⟩
      intro y hy
      rcases List.mem_cons.mp hy with rfl | hy
      · exact hp
      · exact hl₁ y hy

theorem setFirst_append {α : Type} (p : α → Bool) (f : α → α) (l₁ : List α)
    (a : α) (l₂ : List α) (h1 : ∀ x ∈ l₁, p x = false) (ha : p a = true) :
    setFirst p f (l₁ ++ a :: l₂) = l₁ ++ f a :: l₂ := by
  induction l₁ with
  | nil => simp [setFirst, ha]
  | cons x xs ih =>
    have hx := h1 x (List.mem_cons_self x xs)
    simp only [List.cons_append, setFirst, hx, if_false, Bool.false_eq_true]
    exact congrArg (List.cons x) (ih (fun y hy => h1 y (List.mem_cons_of_mem x hy)))

theorem find?_append_left_none {α : Type} {p : α → Bool} (l₁ l₂ : List α)
    (h : ∀ x ∈ l₁, p x = false) : (l₁ ++ l₂).find? p = l₂.find? p := by
  induction l₁ with
  | nil => rfl
  | cons x xs ih =>
    have hx := h x (List.mem_cons_self x xs)
    rw [List.cons_append, List.find?_cons_of_neg _ (by simp [hx])]
    exact ih (fun y hy => h y (List.mem_cons_of_mem x hy))

theorem find?_setFirst {α : Type} (p : α → Bool) (f : α → α) (l : List α) (a : α)
    (h : l.find? p = some a) (hfa : p (f a) = true) :
    (setFirst p f l).find? p = some (f a) := by
  obtain ⟨l₁, l₂, rfl, hl₁⟩ := find?_decomp h
  rw [setFirst_append p f l₁ a l₂ hl₁ (List.find?_some h),
    find?_append_left_none l₁ _ hl₁, List.find?_cons_of_pos _ hfa]

/-- The code's four-way `Math.min(max(0,q), req, aff, avail)` equals the
spec's `clamp(q, 0, min(req, aff, avail))` whenever all three upper bounds
are non-negative. -/
theorem minmax_eq_clamp (q req aff avail : ℤ) (hreq : 0 ≤ req) (haff : 0 ≤ aff)
    (havail : 0 ≤ avail) :
    min (min (max 0 q) (min req avail)) aff = clamp q 0 (min req (min aff avail)) := by
  unfold clamp
  omega

/-! ## Fidelity of the optional-cap embedding -/

/-- On the regime where a zero price comes with positive credit, the IEEE
step of `runAutoAssignment` computes exactly the finite quantities that the
optional-cap embedding (`affordCap`/`capMin`, as used in `autoProcess`)
prescribes. -/
theorem jsAllocStep_faithful (credit price : ℚ) (req rem : ℤ)
    (h : price = 0 → 0 < credit) :
    jsAllocStep credit price req rem
      = (JSNum.fin ((max 0 (capMin (min req rem) (affordCap credit price)) : ℤ) : ℚ),
         JSNum.fin (((max 0 (capMin (min req rem) (affordCap credit price)) : ℤ) : ℚ)
           * price),
         JSNum.fin ((rem : ℚ)
           - ((max 0 (capMin (min req rem) (affordCap credit price)) : ℤ) : ℚ))) := by
  by_cases hp : price = 0
  · have hc := h hp
    have hdiv : jsDiv credit price = JSNum.posInf := by
      unfold jsDiv
      rw [if_pos hp, if_pos hc]
    have haff : affordCap credit price = none := by
      unfold affordCap
      rw [if_pos hp]
    unfold jsAllocStep
    rw [hdiv, haff]
    simp only [jsFloor, jsMin, jsMax0, jsMul, jsSub, capMin, Prod.mk.injEq,
      JSNum.fin.injEq]
    refine ⟨?_, ?_, ?_⟩ <;> push_cast <;> ring_nf
  · have hdiv : jsDiv credit price = JSNum.fin (credit / price) := by
      unfold jsDiv
      rw [if_neg hp]
    have haff : affordCap credit price = some ⌊credit / price⌋ := by
      unfold affordCap
      rw [if_neg hp]
    unfold jsAllocStep
    rw [hdiv, haff]
    simp only [jsFloor, jsMin, jsMax0, jsMul, jsSub, capMin, Prod.mk.injEq,
      JSNum.fin.injEq]
    refine ⟨?_, ?_, ?_⟩ <;> push_cast <;> ring_nf

/-- On the same regime, the IEEE constrained-quantity computation of
`updateAllocation` computes exactly what the optional-cap embedding
prescribes. -/
theorem jsUpdateStep_faithful (credit price : ℚ) (q req avail : ℤ)
    (h : price = 0 → 0 < credit) :
    jsUpdateStep credit price q req avail
      = (JSNum.fin ((capMin (min (max 0 q) (min req avail))
            (affordCap credit price) : ℤ) : ℚ),
         JSNum.fin (((capMin (min (max 0 q) (min req avail))
            (affordCap credit price) : ℤ) : ℚ) * price)) := by
  by_cases hp : price = 0
  · have hc := h hp
    have hdiv : jsDiv credit price = JSNum.posInf := by
      unfold jsDiv
      rw [if_pos hp, if_pos hc]
    have haff : affordCap credit price = none := by
      unfold affordCap
      rw [if_pos hp]
    unfold jsUpdateStep
    rw [hdiv, haff]
    simp only [jsFloor, jsMin, jsMax0, jsMul, capMin, Prod.mk.injEq,
      JSNum.fin.injEq]
    refine ⟨?_, ?_⟩
    · push_cast
      rw [min_assoc]
    · push_cast
      rw [min_assoc]
  · have hdiv : jsDiv credit price = JSNum.fin (credit / price) := by
      unfold jsDiv
      rw [if_neg hp]
    have haff : affordCap credit price = some ⌊credit / price⌋ := by
      unfold affordCap
      rw [if_neg hp]
    unfold jsUpdateStep
    rw [hdiv, haff]
    simp only [jsFloor, jsMin, jsMax0, jsMul, capMin, Prod.mk.injEq,
      JSNum.fin.injEq]
    refine ⟨?_, ?_⟩
    · push_cast
      simp only [min_assoc, min_comm, min_left_comm]
    · push_cast
      simp only [min_assoc, min_comm, min_left_comm]

/-! ## Claim theorems -/

/-- Claim C6: `resetAllocations` sets every order's `allocatedQty` and
`total` to zero, restores `remainingStock = totalStock` (with `totalStock`
unchanged), and clears the violation-message list, unconditionally for every
state. -/
theorem reset_zeroes_everything (app : AppState) :
    (resetAllocations app).alloc.orders
        = app.alloc.orders.map (fun o => { o with allocatedQty := 0, total := 0 })
    ∧ (resetAllocations app).alloc.remainingStock = app.alloc.totalStock
    ∧ (resetAllocations app).alloc.totalStock = app.alloc.totalStock
    ∧ (resetAllocations app).errors = [] :=
  ⟨rfl, rfl, rfl, rfl⟩

/-- Claim C7: if the target order id matches no order, or the matched
order's `customerId` matches no customer, `updateAllocation` is a silent
no-op: the whole application state (orders, stock, errors, versionKey) is
returned unchanged. -/
theorem updateAllocation_notFound_noop (app : AppState) (oid : String) (q : ℤ)
    (h : app.alloc.orders.find? (fun o => o.id == oid) = none
      ∨ ∃ order, app.alloc.orders.find? (fun o => o.id == oid) = some order
          ∧ findCustomer app.alloc.customers order.customerId = none) :
    updateAllocation app oid q = app := by
  unfold updateAllocation
  rcases h with h | ⟨order, h1, h2⟩
  · simp only [h]
  · simp only [h1, h2]

theorem updateAllocation_notFound_noop_witness :
    initialApp.alloc.orders.find? (fun o => o.id == "NOPE") = none
    ∧ updateAllocation initialApp "NOPE" 5 = initialApp :=
  ⟨by decide, updateAllocation_notFound_noop initialApp "NOPE" 5 (Or.inl (by decide))⟩

/-- Claim C4: the priority ordering of `runAutoAssignment` sorts the orders
descending by the referenced customer's `creditRemaining` (the key
`creditOf`, which reads `(find(...)?.creditRemaining || 0)`), it is a
permutation of the input order list, and it is stable: orders whose keys
are equal keep their relative input order (stated as filter-invariance for
every key value — the subsequence of orders carrying any fixed key is
unchanged by the sort). -/
theorem sortByCredit_sorted_and_stable (app : AppState) :
    (sortByCredit app.alloc.customers app.alloc.orders).Pairwise
      (fun a b => creditOf app.alloc.customers b ≤ creditOf app.alloc.customers a)
    ∧ (sortByCredit app.alloc.customers app.alloc.orders).Perm app.alloc.orders
    ∧ ∀ c : ℚ,
      (sortByCredit app.alloc.customers app.alloc.orders).filter
          (fun o => decide (creditOf app.alloc.customers o = c))
        = app.alloc.orders.filter
            (fun o => decide (creditOf app.alloc.customers o = c)) :=
  ⟨sortByCredit_pairwise _ _, sortByCredit_perm _ _,
    fun c => filter_sortByCredit _ _ c⟩

/-- Claim C10: `runAutoAssignment` stores the priority-sorted permutation of
the input order list: the returned order sequence is (by id, positionally)
the stable descending-by-credit sort of the input, and is a permutation of
the input. -/
theorem runAutoAssignment_stores_sorted (app : AppState) :
    (runAutoAssignment app).alloc.orders.map Order.id
        = (sortByCredit app.alloc.customers app.alloc.orders).map Order.id
    ∧ ((runAutoAssignment app).alloc.orders.map Order.id).Perm
        (app.alloc.orders.map Order.id) := by
  have h := autoProcess_map_id app.alloc.customers
    (sortByCredit app.alloc.customers app.alloc.orders) app.alloc.totalStock
  have hp := (sortByCredit_perm app.alloc.customers app.alloc.orders).map Order.id
  exact ⟨h, h ▸ hp⟩

/-- Claim C9: under the data-model preconditions the defensive per-order
rechecks of `runAutoAssignment` never fire, so the violation list it stores
is empty. -/
theorem runAutoAssignment_violationFree (app : AppState)
    (hreq : ∀ o ∈ app.alloc.orders, 0 ≤ o.requestedQty ∧ 0 ≤ o.pricePerUnit)
    (hc : ∀ c ∈ app.alloc.customers, 0 ≤ c.creditRemaining) :
    (runAutoAssignment app).errors = [] := by
  exact autoProcess_errs_nil app.alloc.customers hc _ app.alloc.totalStock
    (fun o ho => hreq o ((sortByCredit_perm app.alloc.customers app.alloc.orders).subset ho))

unseal Rat.ofScientific Rat.mul Rat.inv Rat.add Rat.sub in
theorem runAutoAssignment_violationFree_witness :
    (∀ o ∈ initialApp.alloc.orders, 0 ≤ o.requestedQty ∧ 0 ≤ o.pricePerUnit)
    ∧ (∀ c ∈ initialApp.alloc.customers, 0 ≤ c.creditRemaining)
    ∧ (runAutoAssignment initialApp).errors = [] :=
  ⟨by decide, by decide,
    runAutoAssignment_violationFree initialApp (by decide) (by decide)⟩

/-- Claim C8 fails on the code: `addNewOrder` mutates the order list but
leaves `versionKey` unchanged (and `saveAllocations` does not increment it
either), so a caller cannot detect that change by comparing `versionKey`
values. -/
theorem addNewOrder_versionKey_unchanged_cex :
    (addNewOrder initialApp).versionKey = initialApp.versionKey
    ∧ (addNewOrder initialApp).alloc.orders ≠ initialApp.alloc.orders :=
  ⟨rfl, fun h => by
    have hlen := congrArg List.length h
    simp [addNewOrder, initialApp] at hlen⟩

/-- Claim C8 (amended): `versionKey` is incremented exactly once by
`runAutoAssignment`, by `resetAllocations`, and by `updateAllocation` when
the target order and its customer are found; `addNewOrder` and
`saveAllocations` leave it unchanged. -/
theorem versionKey_policy (app : AppState) (oid : String) (q : ℤ) :
    (runAutoAssignment app).versionKey = app.versionKey + 1
    ∧ (resetAllocations app).versionKey = app.versionKey + 1
    ∧ (∀ order, app.alloc.orders.find? (fun o => o.id == oid) = some order
        → (findCustomer app.alloc.customers order.customerId).isSome
        → (updateAllocation app oid q).versionKey = app.versionKey + 1)
    ∧ (addNewOrder app).versionKey = app.versionKey
    ∧ (saveAllocations app).1.versionKey = app.versionKey := by
  refine ⟨rfl, rfl, ?_, rfl, rfl⟩
  intro order h1 h2
  obtain ⟨c, hc⟩ := Option.isSome_iff_exists.mp h2
  unfold updateAllocation
  simp only [h1, hc]

unseal Rat.ofScientific Rat.mul Rat.inv Rat.add Rat.sub in
theorem versionKey_policy_witness :
    (runAutoAssignment initialApp).versionKey = 2
    ∧ (updateAllocation initialApp "ORDER-001" 7).versionKey = 2
    ∧ (addNewOrder initialApp).versionKey = 1
    ∧ (saveAllocations initialApp).1.versionKey = 1 := by
  have h := versionKey_policy initialApp "ORDER-001" 7
  refine ⟨h.1, ?_, h.2.2.2.1, h.2.2.2.2⟩
  exact h.2.2.1
    { id := "ORDER-001", customerId := "company1", productId := "product",
      requestedQty := 10, allocatedQty := 0, suggestion := 10,
      pricePerUnit := 515.75, total := 0 }
    (by decide) (by decide)

/-- Claim C1: when the target order and its customer exist (and the state
satisfies the data-model bounds that make the three caps non-negative, with
a positive price so that `⌊credit / price⌋` is the affordability cap),
`updateAllocation` sets that order's `allocatedQty` to exactly
`clamp(desiredQty, 0, min(requestedQty, maxAffordableQty, maxAvailableQty))`
with `maxAffordableQty = ⌊credit / price⌋` and `maxAvailableQty` the total
stock minus the allocations of all other orders, and sets `total` to the
clamped quantity times `pricePerUnit`. -/
theorem updateAllocation_clamps (app : AppState) (oid : String) (q : ℤ)
    (order : Order) (customer : Customer)
    (hf : app.alloc.orders.find? (fun o => o.id == oid) = some order)
    (hc : findCustomer app.alloc.customers order.customerId = some customer)
    (hp : 0 < order.pricePerUnit)
    (hreq : 0 ≤ order.requestedQty)
    (hcr : 0 ≤ customer.creditRemaining)
    (hoth : sumAlloc (app.alloc.orders.filter (fun o => !(o.id == oid)))
      ≤ app.alloc.totalStock) :
    (updateAllocation app oid q).alloc.orders.find? (fun o => o.id == oid)
      = some { order with
          allocatedQty := clamp q 0 (min order.requestedQty
            (min ⌊customer.creditRemaining / order.pricePerUnit⌋
              (app.alloc.totalStock
                - sumAlloc (app.alloc.orders.filter (fun o => !(o.id == oid)))))),
          total := ((clamp q 0 (min order.requestedQty
            (min ⌊customer.creditRemaining / order.pricePerUnit⌋
              (app.alloc.totalStock
                - sumAlloc (app.alloc.orders.filter (fun o => !(o.id == oid)))))) : ℤ) : ℚ)
            * order.pricePerUnit } := by
  have hF0 : 0 ≤ ⌊customer.creditRemaining / order.pricePerUnit⌋ :=
    Int.le_floor.mpr (by push_cast; exact div_nonneg hcr hp.le)
  have havail : 0 ≤ app.alloc.totalStock
      - sumAlloc (app.alloc.orders.filter (fun o => !(o.id == oid))) := by omega
  have haff : affordCap customer.creditRemaining order.pricePerUnit
      = some ⌊customer.creditRemaining / order.pricePerUnit⌋ := by
    unfold affordCap
    rw [if_neg (ne_of_gt hp)]
  unfold updateAllocation
  simp only [hf, hc, haff, capMin,
    minmax_eq_clamp q order.requestedQty
      ⌊customer.creditRemaining / order.pricePerUnit⌋
      (app.alloc.totalStock
        - sumAlloc (app.alloc.orders.filter (fun o => !(o.id == oid))))
      hreq hF0 havail]
  refine find?_setFirst _ _ _ _ hf ?_
  simpa using List.find?_some hf

unseal Rat.ofScientific Rat.mul Rat.inv Rat.add Rat.sub in
theorem updateAllocation_clamps_witness :
    (0 : ℚ) < 515.75
    ∧ (updateAllocation initialApp "ORDER-001" 7).alloc.orders.find?
        (fun o => o.id == "ORDER-001")
      = some { id := "ORDER-001", customerId := "company1", productId := "product",
               requestedQty := 10, allocatedQty := 5, suggestion := 10,
               pricePerUnit := 515.75, total := 2578.75 } := by
  refine ⟨by decide, ?_⟩
  rw [updateAllocation_clamps initialApp "ORDER-001" 7
    { id := "ORDER-001", customerId := "company1", productId := "product",
      requestedQty := 10, allocatedQty := 0, suggestion := 10,
      pricePerUnit := 515.75, total := 0 }
    { id := "company1", name := "Company 1", creditRemaining := 3000,
      closingBalance := 3000 }
    (by decide) (by decide) (by decide) (by decide) (by decide) (by decide)]
  decide

/-- Claim C5: for a successful `updateAllocation` (order and customer found,
positive price, data-model bounds), a diagnostic is emitted exactly when
`constrainedQty < desiredQty`, classified by checking the binding cause in
priority order: the customer-credit message iff
`constrainedQty = maxAffordableQty`, else the stock message iff
`constrainedQty = maxAvailableQty`, else (e.g. when the `requestedQty` cap
was binding) no message at all. -/
theorem updateAllocation_diagnostics (app : AppState) (oid : String) (q : ℤ)
    (order : Order) (customer : Customer)
    (hf : app.alloc.orders.find? (fun o => o.id == oid) = some order)
    (hc : findCustomer app.alloc.customers order.customerId = some customer)
    (hp : 0 < order.pricePerUnit)
    (hreq : 0 ≤ order.requestedQty)
    (hcr : 0 ≤ customer.creditRemaining)
    (hoth : sumAlloc (app.alloc.orders.filter (fun o => !(o.id == oid)))
      ≤ app.alloc.totalStock) :
    (updateAllocation app oid q).errors =
      (if clamp q 0 (min order.requestedQty
            (min ⌊customer.creditRemaining / order.pricePerUnit⌋
              (app.alloc.totalStock
                - sumAlloc (app.alloc.orders.filter (fun o => !(o.id == oid))))))
          < q then
        if clamp q 0 (min order.requestedQty
            (min ⌊customer.creditRemaining / order.pricePerUnit⌋
              (app.alloc.totalStock
                - sumAlloc (app.alloc.orders.filter (fun o => !(o.id == oid))))))
            = ⌊customer.creditRemaining / order.pricePerUnit⌋ then
          [creditLimitMsg oid]
        else if clamp q 0 (min order.requestedQty
            (min ⌊customer.creditRemaining / order.pricePerUnit⌋
              (app.alloc.totalStock
                - sumAlloc (app.alloc.orders.filter (fun o => !(o.id == oid))))))
            = app.alloc.totalStock
              - sumAlloc (app.alloc.orders.filter (fun o => !(o.id == oid))) then
          [stockLimitMsg oid]
        else []
      else []) := by
  have hF0 : 0 ≤ ⌊customer.creditRemaining / order.pricePerUnit⌋ :=
    Int.le_floor.mpr (by push_cast; exact div_nonneg hcr hp.le)
  have havail : 0 ≤ app.alloc.totalStock
      - sumAlloc (app.alloc.orders.filter (fun o => !(o.id == oid))) := by omega
  have haff : affordCap customer.creditRemaining order.pricePerUnit
      = some ⌊customer.creditRemaining / order.pricePerUnit⌋ := by
    unfold affordCap
    rw [if_neg (ne_of_gt hp)]
  unfold updateAllocation
  simp only [hf, hc, haff, capMin, Option.some.injEq,
    minmax_eq_clamp q order.requestedQty
      ⌊customer.creditRemaining / order.pricePerUnit⌋
      (app.alloc.totalStock
        - sumAlloc (app.alloc.orders.filter (fun o => !(o.id == oid))))
      hreq hF0 havail]

unseal Rat.ofScientific Rat.mul Rat.inv Rat.add Rat.sub in
theorem updateAllocation_diagnostics_witness :
    (0 : ℚ) < 515.75
    ∧ (updateAllocation initialApp "ORDER-001" 7).errors
      = [creditLimitMsg "ORDER-001"] := by
  refine ⟨by decide, ?_⟩
  rw [updateAllocation_diagnostics initialApp "ORDER-001" 7
    { id := "ORDER-001", customerId := "company1", productId := "product",
      requestedQty := 10, allocatedQty := 0, suggestion := 10,
      pricePerUnit := 515.75, total := 0 }
    { id := "company1", name := "Company 1", creditRemaining := 3000,
      closingBalance := 3000 }
    (by decide) (by decide) (by decide) (by decide) (by decide) (by decide)]
  decide

/-- The embedded walk coincides with the claim-worded walk whenever every
order's customer resolves. -/
theorem autoProcess_eq_specWalk (customers : List Customer) :
    ∀ (l : List Order) (rem : ℤ),
      (∀ o ∈ l, (findCustomer customers o.customerId).isSome) →
      ((autoProcess customers l rem).orders, (autoProcess customers l rem).rem)
        = autoSpecWalk customers l rem := by
  intro l
  induction l with
  | nil => intro rem h; rfl
  | cons o rest ih =>
    intro rem h
    obtain ⟨cust, hf⟩ :=
      Option.isSome_iff_exists.mp (h o (List.mem_cons_self o rest))
    have hrest := fun o' ho' => h o' (List.mem_cons_of_mem o ho')
    have hcred : creditOf customers o = cust.creditRemaining :=
      creditOf_eq_of_find customers o cust hf
    by_cases hp : o.pricePerUnit = 0
    · have haff : affordCap cust.creditRemaining o.pricePerUnit = none := by
        unfold affordCap
        rw [if_pos hp]
      have ihh := ih (rem - max 0 (min o.requestedQty rem)) hrest
      rw [Prod.ext_iff] at ihh
      simp only [autoProcess, autoSpecWalk, hf, hcred, haff, capMin, if_pos hp,
        Prod.mk.injEq, List.cons.injEq]
      exact ⟨⟨trivial, ihh.1⟩, ihh.2⟩
    · have haff : affordCap cust.creditRemaining o.pricePerUnit
          = some ⌊cust.creditRemaining / o.pricePerUnit⌋ := by
        unfold affordCap
        rw [if_neg hp]
      have hmin : min (min o.requestedQty rem) ⌊cust.creditRemaining / o.pricePerUnit⌋
          = min o.requestedQty (min rem ⌊cust.creditRemaining / o.pricePerUnit⌋) :=
        min_assoc _ _ _
      have ihh := ih (rem - max 0 (min o.requestedQty
        (min rem ⌊cust.creditRemaining / o.pricePerUnit⌋))) hrest
      rw [Prod.ext_iff] at ihh
      simp only [autoProcess, autoSpecWalk, hf, hcred, haff, capMin, if_neg hp, hmin,
        Prod.mk.injEq, List.cons.injEq]
      exact ⟨⟨trivial, ihh.1⟩, ihh.2⟩

/- Claim C2 fails as stated at a zero price with credit `0`: the source
computes `Math.floor(0 / 0) = NaN`, which propagates through
`Math.min`/`Math.max`, so for an order with `requestedQty = 5` against a
running stock of `10` the stored `allocatedQty` and the running stock
become `NaN` — not the `max(0, min(5, 10)) = 5` that the claim's "limited
only by requestedQty and remaining stock" rule prescribes.  `jsAllocStep`
is the faithful IEEE model of that `forEach` body. -/
theorem autoStep_zeroPrice_nan_cex :
    (jsAllocStep 0 0 5 10).1 = JSNum.nan
    ∧ (jsAllocStep 0 0 5 10).2.2 = JSNum.nan
    ∧ (jsAllocStep 0 0 5 10).1
      ≠ JSNum.fin ((max 0 (min (5 : ℤ) 10) : ℤ) : ℚ) := by
  decide

/-- Claim C2 (amended): `runAutoAssignment` walks the orders in priority
order threading a running stock seeded at `totalStock`; each order gets
`allocatedQty = max(0, min(requestedQty, remainingStock, maxAffordableQty))`
with `maxAffordableQty = ⌊credit / price⌋` (unbounded when the price is
`0`, so allocation is then limited only by `requestedQty` and the remaining
stock), `total = allocatedQty × pricePerUnit`, and the running stock is
decremented by `allocatedQty`; the stored orders and `remainingStock` are
exactly the result of that walk — provided every order's customer resolves
(an unresolved customer is skipped by the code) and every zero-priced
order's customer holds positive credit: on that regime the embedding's
per-order arithmetic coincides with the JavaScript step, which the second
conjunct states for every order of this state at every running-stock
value; at credit `0` the code instead stores `NaN`
(`autoStep_zeroPrice_nan_cex`). -/
theorem runAutoAssignment_follows_spec (app : AppState)
    (h : ∀ o ∈ app.alloc.orders,
      (findCustomer app.alloc.customers o.customerId).isSome)
    (hz : ZeroPriceOK app.alloc) :
    (((runAutoAssignment app).alloc.orders,
        (runAutoAssignment app).alloc.remainingStock)
      = autoSpecWalk app.alloc.customers
          (sortByCredit app.alloc.customers app.alloc.orders)
          app.alloc.totalStock)
    ∧ ∀ o ∈ app.alloc.orders, ∀ cust,
        findCustomer app.alloc.customers o.customerId = some cust →
        ∀ rem : ℤ,
          jsAllocStep cust.creditRemaining o.pricePerUnit o.requestedQty rem
            = (JSNum.fin ((max 0 (capMin (min o.requestedQty rem)
                  (affordCap cust.creditRemaining o.pricePerUnit)) : ℤ) : ℚ),
               JSNum.fin (((max 0 (capMin (min o.requestedQty rem)
                  (affordCap cust.creditRemaining o.pricePerUnit)) : ℤ) : ℚ)
                 * o.pricePerUnit),
               JSNum.fin ((rem : ℚ)
                 - ((max 0 (capMin (min o.requestedQty rem)
                  (affordCap cust.creditRemaining o.pricePerUnit)) : ℤ) : ℚ))) := by
  refine ⟨autoProcess_eq_specWalk app.alloc.customers _ app.alloc.totalStock
    (fun o ho =>
      h o ((sortByCredit_perm app.alloc.customers app.alloc.orders).subset ho)),
    ?_⟩
  intro o ho cust hcust rem
  apply jsAllocStep_faithful
  intro hp0
  have hcr := hz o ho hp0
  rwa [creditOf_eq_of_find app.alloc.customers o cust hcust] at hcr

unseal Rat.ofScientific Rat.mul Rat.inv Rat.add Rat.sub in
theorem runAutoAssignment_follows_spec_witness :
    (∀ o ∈ initialApp.alloc.orders,
      (findCustomer initialApp.alloc.customers o.customerId).isSome)
    ∧ ZeroPriceOK initialApp.alloc
    ∧ ((((runAutoAssignment initialApp).alloc.orders,
        (runAutoAssignment initialApp).alloc.remainingStock)
      = autoSpecWalk initialApp.alloc.customers
          (sortByCredit initialApp.alloc.customers initialApp.alloc.orders)
          initialApp.alloc.totalStock)
    ∧ ∀ o ∈ initialApp.alloc.orders, ∀ cust,
        findCustomer initialApp.alloc.customers o.customerId = some cust →
        ∀ rem : ℤ,
          jsAllocStep cust.creditRemaining o.pricePerUnit o.requestedQty rem
            = (JSNum.fin ((max 0 (capMin (min o.requestedQty rem)
                  (affordCap cust.creditRemaining o.pricePerUnit)) : ℤ) : ℚ),
               JSNum.fin (((max 0 (capMin (min o.requestedQty rem)
                  (affordCap cust.creditRemaining o.pricePerUnit)) : ℤ) : ℚ)
                 * o.pricePerUnit),
               JSNum.fin ((rem : ℚ)
                 - ((max 0 (capMin (min o.requestedQty rem)
                  (affordCap cust.creditRemaining o.pricePerUnit)) : ℤ) : ℚ)))) :=
  ⟨by decide, by decide,
    runAutoAssignment_follows_spec initialApp (by decide) (by decide)⟩

/-! ## Invariant preservation -/

/-- The capped quantity of `updateAllocation` is non-negative (when the
uncapped candidate is) and respects the customer's credit. -/
theorem capMin_credit (credit price : ℚ) (n : ℤ) (hn : 0 ≤ n)
    (hcred : 0 ≤ credit) (hp : 0 ≤ price) :
    0 ≤ capMin n (affordCap credit price)
    ∧ ((capMin n (affordCap credit price) : ℤ) : ℚ) * price ≤ credit := by
  rcases eq_or_lt_of_le hp with hp0 | hp0
  · have haff : affordCap credit price = none := by
      unfold affordCap
      rw [if_pos hp0.symm]
    rw [haff]
    refine ⟨hn, ?_⟩
    rw [← hp0, mul_zero]
    exact hcred
  · have hne : price ≠ 0 := ne_of_gt hp0
    have haff : affordCap credit price = some ⌊credit / price⌋ := by
      unfold affordCap
      rw [if_neg hne]
    have hF0 : 0 ≤ ⌊credit / price⌋ := Int.le_floor.mpr (by
      push_cast
      exact div_nonneg hcred hp0.le)
    rw [haff]
    have hcm : capMin n (some ⌊credit / price⌋) = min n ⌊credit / price⌋ := rfl
    refine ⟨by rw [hcm]; omega, ?_⟩
    have hle : capMin n (some ⌊credit / price⌋) ≤ ⌊credit / price⌋ := by
      rw [hcm]; omega
    calc ((capMin n (some ⌊credit / price⌋) : ℤ) : ℚ) * price
        ≤ ((⌊credit / price⌋ : ℤ) : ℚ) * price :=
          mul_le_mul_of_nonneg_right (by exact_mod_cast hle) hp0.le
      _ ≤ (credit / price) * price :=
          mul_le_mul_of_nonneg_right (Int.floor_le _) hp0.le
      _ = credit := div_mul_cancel₀ credit hne

theorem sumAlloc_single (o : Order) : sumAlloc [o] = o.allocatedQty := by
  simp [sumAlloc]

/-- `runAutoAssignment` re-establishes the invariants from any well-formed
state. -/
theorem invariants_runAuto (app : AppState) (h : StateOK app.alloc) :
    Invariants (runAutoAssignment app).alloc := by
  obtain ⟨⟨hpre1, hpre2⟩, htot, hinv, href, hnd⟩ := h
  have hsorted : ∀ o ∈ sortByCredit app.alloc.customers app.alloc.orders,
      0 ≤ o.requestedQty ∧ 0 ≤ o.pricePerUnit
      ∧ (findCustomer app.alloc.customers o.customerId).isSome := by
    intro o ho
    have hm := (sortByCredit_perm app.alloc.customers app.alloc.orders).subset ho
    exact ⟨(hpre1 o hm).1, (hpre1 o hm).2, href o hm⟩
  obtain ⟨hall, hrem, hpos⟩ := autoProcess_ok app.alloc.customers hpre2
    (sortByCredit app.alloc.customers app.alloc.orders) app.alloc.totalStock
    hsorted htot
  unfold runAutoAssignment Invariants
  dsimp only
  exact ⟨hall, by omega, hrem⟩

/-- `resetAllocations` re-establishes the invariants from any well-formed
state. -/
theorem invariants_reset (app : AppState) (h : StateOK app.alloc) :
    Invariants (resetAllocations app).alloc := by
  obtain ⟨⟨hpre1, hpre2⟩, htot, hinv, href, hnd⟩ := h
  unfold resetAllocations Invariants
  dsimp only
  have hz : sumAlloc (app.alloc.orders.map
      (fun o => { o with allocatedQty := 0, total := 0 })) = 0 := by
    unfold sumAlloc
    rw [List.map_map]
    have : (Order.allocatedQty ∘ fun o : Order =>
        { o with allocatedQty := 0, total := 0 }) = fun _ => (0 : ℤ) := rfl
    rw [this]
    simp
  refine ⟨?_, by omega, by omega⟩
  intro o' ho'
  obtain ⟨o, ho, rfl⟩ := List.mem_map.mp ho'
  unfold OrderOK
  dsimp only
  have h0 : ((0 : ℤ) : ℚ) * o.pricePerUnit = 0 := by push_cast; ring
  refine ⟨le_refl 0, (hpre1 o ho).1, h0.symm, ?_⟩
  rw [h0]
  exact creditOf_nonneg _ _ hpre2

/-- `addNewOrder` re-establishes the invariants from any well-formed
state. -/
theorem invariants_addNew (app : AppState) (h : StateOK app.alloc) :
    Invariants (addNewOrder app).alloc := by
  obtain ⟨⟨hpre1, hpre2⟩, htot, ⟨hord, hsum, hrs⟩, href, hnd⟩ := h
  unfold addNewOrder Invariants
  dsimp only
  refine ⟨?_, ?_, ?_⟩
  · intro o' ho'
    rcases List.mem_append.mp ho' with ho' | ho'
    · exact hord o' ho'
    · have he := List.mem_singleton.mp ho'
      subst he
      unfold OrderOK
      dsimp only
      have h0 : ((0 : ℤ) : ℚ) * (515.75 : ℚ) = 0 := by push_cast; ring
      refine ⟨le_refl 0, by norm_num, h0.symm, ?_⟩
      rw [h0]
      exact creditOf_nonneg _ _ hpre2
  · rw [sumAlloc_append, sumAlloc_single]
    dsimp only
    omega
  · rw [sumAlloc_append, sumAlloc_single]
    dsimp only
    omega

/-- `updateAllocation` re-establishes the invariants from any well-formed
state. -/
theorem invariants_update (app : AppState) (oid : String) (q : ℤ)
    (h : StateOK app.alloc) :
    Invariants (updateAllocation app oid q).alloc := by
  obtain ⟨⟨hpre1, hpre2⟩, htot, ⟨hord, hsum, hrs⟩, href, hnd⟩ := h
  cases hfo : app.alloc.orders.find? (fun o => o.id == oid) with
  | none =>
    unfold updateAllocation
    simp only [hfo]
    exact ⟨hord, hsum, hrs⟩
  | some order =>
    cases hfc : findCustomer app.alloc.customers order.customerId with
    | none =>
      unfold updateAllocation
      simp only [hfo, hfc]
      exact ⟨hord, hsum, hrs⟩
    | some customer =>
      obtain ⟨l₁, l₂, hsplit, hl₁⟩ := find?_decomp hfo
      have hpo' := List.find?_some hfo
      have hpo : (order.id == oid) = true := by simpa using hpo'
      have hmemo : order ∈ app.alloc.orders := List.mem_of_find?_eq_some hfo
      have hmemc : customer ∈ app.alloc.customers := findCustomer_mem hfc
      have hcr : 0 ≤ customer.creditRemaining := hpre2 customer hmemc
      have hreq : 0 ≤ order.requestedQty := (hpre1 order hmemo).1
      have hpp : 0 ≤ order.pricePerUnit := (hpre1 order hmemo).2
      have ha0 : 0 ≤ order.allocatedQty := (hord order hmemo).1
      have hl₂ : ∀ x ∈ l₂, (x.id == oid) = false := by
        intro x hx
        have hmap : ((l₁ ++ order :: l₂).map Order.id).Nodup := by
          rw [← hsplit]
          exact hnd
        rw [List.map_append, List.map_cons] at hmap
        have h2 := hmap.of_append_right
        rw [List.nodup_cons] at h2
        have hxm : x.id ∈ l₂.map Order.id := List.mem_map_of_mem _ hx
        have hne : x.id ≠ order.id := fun he => h2.1 (he ▸ hxm)
        have hoe : order.id = oid := by simpa using hpo
        exact beq_eq_false_iff_ne.mpr (fun he => hne (he.trans hoe.symm))
      have hfilter : app.alloc.orders.filter (fun o => !(o.id == oid))
          = l₁ ++ l₂ := by
        rw [hsplit, List.filter_append]
        have h1 : l₁.filter (fun o => !(o.id == oid)) = l₁ :=
          List.filter_eq_self.mpr (fun x hx => by rw [hl₁ x hx]; rfl)
        have h2 : (order :: l₂).filter (fun o => !(o.id == oid))
            = l₂.filter (fun o => !(o.id == oid)) := by
          rw [List.filter_cons]
          simp [hpo]
        have h3 : l₂.filter (fun o => !(o.id == oid)) = l₂ :=
          List.filter_eq_self.mpr (fun x hx => by rw [hl₂ x hx]; rfl)
        rw [h1, h2, h3]
      have hsum' : sumAlloc l₁ + order.allocatedQty + sumAlloc l₂
          ≤ app.alloc.totalStock := by
        have hx := hsum
        rw [hsplit, sumAlloc_append, sumAlloc_cons] at hx
        omega
      have hn0 : 0 ≤ min (max 0 q) (min order.requestedQty
          (app.alloc.totalStock - (sumAlloc l₁ + sumAlloc l₂))) := by
        omega
      obtain ⟨hC0, hCcred⟩ := capMin_credit customer.creditRemaining
        order.pricePerUnit (min (max 0 q) (min order.requestedQty
          (app.alloc.totalStock - (sumAlloc l₁ + sumAlloc l₂)))) hn0 hcr hpp
      have hCle := capMin_le (min (max 0 q) (min order.requestedQty
          (app.alloc.totalStock - (sumAlloc l₁ + sumAlloc l₂))))
        (affordCap customer.creditRemaining order.pricePerUnit)
      have hCreq : capMin (min (max 0 q) (min order.requestedQty
          (app.alloc.totalStock - (sumAlloc l₁ + sumAlloc l₂))))
          (affordCap customer.creditRemaining order.pricePerUnit)
          ≤ order.requestedQty := le_trans hCle (by omega)
      have hCavail : capMin (min (max 0 q) (min order.requestedQty
          (app.alloc.totalStock - (sumAlloc l₁ + sumAlloc l₂))))
          (affordCap customer.creditRemaining order.pricePerUnit)
          ≤ app.alloc.totalStock - (sumAlloc l₁ + sumAlloc l₂) :=
        le_trans hCle (by omega)
      unfold updateAllocation Invariants
      simp only [hfo, hfc, hfilter, sumAlloc_append]
      rw [hsplit]
      rw [setFirst_append (fun o => o.id == oid) _ l₁ order l₂ hl₁ hpo]
      simp only [sumAlloc_append, sumAlloc_cons]
      refine ⟨?_, by omega, by trivial⟩
      intro o' ho'
      rcases List.mem_append.mp ho' with ho' | ho'
      · refine hord o' ?_
        rw [hsplit]
        exact List.mem_append_left _ ho'
      · rcases List.mem_cons.mp ho' with rfl | ho'
        · unfold OrderOK
          dsimp only
          have hcof : creditOf app.alloc.customers
              { order with
                allocatedQty := capMin (min (max 0 q) (min order.requestedQty
                  (app.alloc.totalStock - (sumAlloc l₁ + sumAlloc l₂))))
                  (affordCap customer.creditRemaining order.pricePerUnit),
                total := ((capMin (min (max 0 q) (min order.requestedQty
                  (app.alloc.totalStock - (sumAlloc l₁ + sumAlloc l₂))))
                  (affordCap customer.creditRemaining order.pricePerUnit) : ℤ) : ℚ)
                  * order.pricePerUnit }
              = customer.creditRemaining := by
            unfold creditOf
            dsimp only
            rw [hfc]
            rfl
          refine ⟨hC0, by omega, rfl, ?_⟩
          rw [hcof]
          exact hCcred
        · refine hord o' ?_
          rw [hsplit]
          exact List.mem_append_right _ (List.mem_cons_of_mem _ ho')

/- Claim C3 fails as stated: `cexApp` satisfies the data-model
preconditions (non-negative credit, price, requested quantity — and even
non-negative stock and full referential integrity), yet after the call
`updateAllocation _ "ORDER-001" 1` the invariants do not hold, because the
untouched second order still carries `allocatedQty = 7 > 2 = requestedQty`.
Preconditions alone do not make the operations re-establish invariants. -/
unseal Rat.ofScientific Rat.mul Rat.inv Rat.add Rat.sub in
theorem invariants_from_preconditions_cex :
    Pre cexApp.alloc ∧ 0 ≤ cexApp.alloc.totalStock ∧ RefIntegrity cexApp.alloc
    ∧ ¬ Invariants (updateAllocation cexApp "ORDER-001" 1).alloc := by
  decide

/-- Claim C3 (amended): for every state satisfying the data-model
preconditions together with the §3 invariants themselves, referential
integrity and unique order ids (`StateOK`), and on which every zero-priced
order's customer holds positive credit (`ZeroPriceOK`, the regime where the
embedded arithmetic coincides with the JavaScript step — see
`jsAllocStep_faithful`/`jsUpdateStep_faithful`; at credit `0` the code
stores `NaN` allocations instead), invariants 1–4 hold again after each
call to `runAutoAssignment`, `updateAllocation`, `resetAllocations`, or
`addNewOrder`; the last conjunct records that on such a state the IEEE
constrained-quantity computation of `updateAllocation` agrees with the
embedded one for every order, at every stock headroom. -/
theorem invariants_preserved_all (app : AppState) (oid : String) (q : ℤ)
    (h : StateOK app.alloc) (hz : ZeroPriceOK app.alloc) :
    Invariants (runAutoAssignment app).alloc
    ∧ Invariants (updateAllocation app oid q).alloc
    ∧ Invariants (resetAllocations app).alloc
    ∧ Invariants (addNewOrder app).alloc
    ∧ ∀ o ∈ app.alloc.orders, ∀ cust,
        findCustomer app.alloc.customers o.customerId = some cust →
        ∀ avail : ℤ,
          jsUpdateStep cust.creditRemaining o.pricePerUnit q
              o.requestedQty avail
            = (JSNum.fin ((capMin (min (max 0 q) (min o.requestedQty avail))
                  (affordCap cust.creditRemaining o.pricePerUnit) : ℤ) : ℚ),
               JSNum.fin (((capMin (min (max 0 q) (min o.requestedQty avail))
                  (affordCap cust.creditRemaining o.pricePerUnit) : ℤ) : ℚ)
                 * o.pricePerUnit)) := by
  refine ⟨invariants_runAuto app h, invariants_update app oid q h,
    invariants_reset app h, invariants_addNew app h, ?_⟩
  intro o ho cust hcust avail
  apply jsUpdateStep_faithful
  intro hp0
  have hcr := hz o ho hp0
  rwa [creditOf_eq_of_find app.alloc.customers o cust hcust] at hcr

unseal Rat.ofScientific Rat.mul Rat.inv Rat.add Rat.sub in
theorem invariants_preserved_all_witness :
    StateOK initialApp.alloc
    ∧ ZeroPriceOK initialApp.alloc
    ∧ (Invariants (runAutoAssignment initialApp).alloc
    ∧ Invariants (updateAllocation initialApp "ORDER-001" 7).alloc
    ∧ Invariants (resetAllocations initialApp).alloc
    ∧ Invariants (addNewOrder initialApp).alloc
    ∧ ∀ o ∈ initialApp.alloc.orders, ∀ cust,
        findCustomer initialApp.alloc.customers o.customerId = some cust →
        ∀ avail : ℤ,
          jsUpdateStep cust.creditRemaining o.pricePerUnit 7
              o.requestedQty avail
            = (JSNum.fin ((capMin (min (max 0 7) (min o.requestedQty avail))
                  (affordCap cust.creditRemaining o.pricePerUnit) : ℤ) : ℚ),
               JSNum.fin (((capMin (min (max 0 7) (min o.requestedQty avail))
                  (affordCap cust.creditRemaining o.pricePerUnit) : ℤ) : ℚ)
                 * o.pricePerUnit))) :=
  ⟨by decide, by decide,
    invariants_preserved_all initialApp "ORDER-001" 7 (by decide) (by decide)⟩
